import Mathlib

/-!
# Verification of the Douyin stealth page resolver (backend/douyin_downloader.py)

This file gives a shallow embedding of the URL classifier, URL normalizer,
traffic-observer callbacks and result assembler of
`src/backend/douyin_downloader.py`, and proves or refutes the frozen claims
about them.

Modelling conventions:
* Python strings are `String` / `List Char`; `str.lower` is modelled by
  `Char.toLower` (the source only compares against ASCII markers).
* Python's `urllib.parse.urlparse` is modelled by `urlparseE` below, following
  CPython's `urlsplit`/`_splitparams` (scheme detection, `//` netloc split at
  `/?#`, IPv6 bracket-mismatch `ValueError`, fragment then query split, params
  split after the last `/`).  The newer bracketed-host validation is not
  modelled; no claim involves bracketed hosts.  A raised exception is `none`.
* Python `set`s are modelled as duplicate-free lists kept in insertion order;
  insertion order witnesses "observed first chronologically", while iteration
  over a set (`for url in video_urls`, `next(iter(...))`, comprehensions) is
  modelled by an explicit enumeration list that is only required to be a
  permutation of the set's contents, since CPython string-set iteration order
  is not the insertion order.
* Logging calls and the debug-only `douyin_requests` list do not affect any
  returned value and are omitted.
-/

/-! ## Character helpers -/

/-- Characters removed by CPython `urlsplit` before parsing: tab, CR, LF. -/
def ctrlChar (c : Char) : Bool :=
  c.toNat == 9 || c.toNat == 13 || c.toNat == 10

/-- CPython `scheme_chars`: ASCII letters, digits, `+`, `-`, `.`. -/
def schemeChar (c : Char) : Bool :=
  (65 ≤ c.toNat && c.toNat ≤ 90) || (97 ≤ c.toNat && c.toNat ≤ 122) ||
  (48 ≤ c.toNat && c.toNat ≤ 57) || c.toNat == 43 || c.toNat == 45 || c.toNat == 46

/-- `url[0].isascii() and url[0].isalpha()` in CPython's scheme detection. -/
def asciiAlpha (c : Char) : Bool :=
  (65 ≤ c.toNat && c.toNat ≤ 90) || (97 ≤ c.toNat && c.toNat ≤ 122)

/-- Characters ending the netloc in CPython `_splitnetloc`: `/`, `?`, `#`. -/
def netlocDelim (c : Char) : Bool :=
  c == '/' || c == '?' || c == '#'

/-- Model of Python `str.lower` on a character list (ASCII case mapping). -/
def lowerL (l : List Char) : List Char := l.map Char.toLower

/-- Model of Python `str.lower` on strings. -/
def pyLower (s : String) : String := String.mk (lowerL s.data)

/-! ## Substring containment (Python `sub in s`) -/

/-- `isPrefixL sub s`: `s` starts with `sub`. -/
def isPrefixL : List Char → List Char → Bool
  | [], _ => true
  | _ :: _, [] => false
  | a :: as, b :: bs => a == b && isPrefixL as bs

/-- Model of Python's substring test `sub in s`. -/
def containsSub (sub : List Char) : List Char → Bool
  | [] => sub.isEmpty
  | c :: cs => isPrefixL sub (c :: cs) || containsSub sub cs

/-! ## The URL classifier (douyin_downloader.py lines 47-79)

Python values flowing into the classifiers and the normalizer may be
non-strings (`not url or not isinstance(url, str)`).  `urlparse` treats the
non-string inputs differently, so the model distinguishes them:
`bytes s` is a bytes-like value (`bytes`/`bytearray`) whose contents are the
ASCII characters of `s` (printable, without quotes or backslashes, so its
Python repr is `b` followed by the single-quoted contents); `falsy` is `None`
or any falsy non-string (`0`, `[]`, `{}`), which `urlparse`'s coercion decodes
to the empty string; `nonstr` is any other (truthy, non-bytes-like)
non-string object, on which the coercion's `.decode` raises. -/

inductive PyVal where
  | str (s : String)
  | bytes (s : String)
  | falsy
  | nonstr
deriving DecidableEq

/-- `skip_words` of `_is_valid_video_url` (line 53). -/
def skip_words : List (List Char) :=
  ["icon".data, "logo".data, "bg".data, "background".data, "thumb".data,
   "preview".data, "avatar".data, "cover".data, "uuu_265".data,
   "douyin_pc_client".data, "client".data, "download".data, "install".data,
   "setup".data]

/-- `exclude_domains` of `_is_valid_video_url` (line 65). -/
def exclude_domains : List (List Char) :=
  ["douyinstatic.com".data, "byteeffecttos.com".data, "effectcdn".data,
   "bytednsdoc.com".data, "eden-cn".data, "ild_jw".data]

/-- Video file-extension markers of `_is_valid_video_url` (line 71). -/
def video_exts : List (List Char) :=
  [".mp4".data, ".m3u8".data, ".flv".data, ".webm".data, ".mov".data, ".avi".data]

/-- Body of `_is_valid_video_url` on a (nonempty-checked) string. -/
def _is_valid_video_url_l (l : List Char) : Bool :=
  if l.isEmpty then false
  else
    let url_lower := lowerL l
    if skip_words.any (fun w => containsSub w url_lower) then false
    else if containsSub "douyinvod.com".data url_lower &&
            containsSub "video".data url_lower then true
    else if exclude_domains.any (fun d => containsSub d url_lower) then false
    else video_exts.any (fun e => containsSub e url_lower)

/-- `_is_valid_video_url` (lines 47-72); `isinstance(url, str)` is false for
every non-string value, bytes included. -/
def _is_valid_video_url : PyVal → Bool
  | .str s => _is_valid_video_url_l s.data
  | _ => false

/-- Body of `_is_douyinvod_url` on a (nonempty-checked) string. -/
def _is_douyinvod_url_l (l : List Char) : Bool :=
  if l.isEmpty then false
  else
    containsSub "douyinvod.com".data (lowerL l) &&
    containsSub "video".data (lowerL l)

/-- `_is_douyinvod_url` (lines 74-79); `isinstance(url, str)` is false for
every non-string value, bytes included. -/
def _is_douyinvod_url : PyVal → Bool
  | .str s => _is_douyinvod_url_l s.data
  | _ => false

/-- The inline check of `handle_navigation` (line 267):
`'douyinvod.com' in url_lower and 'video' in url_lower` with no type guard. -/
def isDouyinvodRaw (url : String) : Bool :=
  containsSub "douyinvod.com".data (lowerL url.data) &&
  containsSub "video".data (lowerL url.data)

/-! ## Model of `urllib.parse.urlparse` -/

/-- `ParseResult` fields used by the source. -/
structure UrlParts where
  scheme : List Char
  netloc : List Char
  path : List Char
  params : List Char
  query : List Char
  fragment : List Char
deriving DecidableEq

/-- CPython `urlsplit` first removes tab/CR/LF anywhere in the URL. -/
def preClean (u : List Char) : List Char := u.filter (fun c => !ctrlChar c)

/-- A valid scheme prefix: nonempty, starts with an ASCII letter, and all
characters are `scheme_chars`. -/
def validScheme : List Char → Bool
  | [] => false
  | c :: cs => asciiAlpha c && (c :: cs).all schemeChar

/-- Scheme detection of `urlsplit`: split at the first `:` when the part
before it is a valid scheme; the scheme is lowercased. -/
def splitScheme (u : List Char) : List Char × List Char :=
  match u.dropWhile (fun c => c != ':') with
  | [] => ([], u)
  | _ :: rest =>
    let pre := u.takeWhile (fun c => c != ':')
    if validScheme pre then (pre.map Char.toLower, rest) else ([], u)

/-- Netloc split of `urlsplit`: after a leading `//`, the netloc runs up to
the first `/`, `?` or `#`. -/
def splitNetloc : List Char → List Char × List Char
  | '/' :: '/' :: rest =>
    (rest.takeWhile (fun c => !netlocDelim c), rest.dropWhile (fun c => !netlocDelim c))
  | u => ([], u)

/-- `urlsplit` raises `ValueError` when the netloc has `[` without `]` or
conversely. -/
def bracketMismatch (n : List Char) : Bool :=
  n.contains '[' != n.contains ']'

/-- Fragment split: `url.split('#', 1)` when `#` occurs. -/
def splitFragment (u : List Char) : List Char × List Char :=
  (u.takeWhile (fun c => c != '#'),
   match u.dropWhile (fun c => c != '#') with
   | [] => []
   | _ :: f => f)

/-- Query split: `url.split('?', 1)` when `?` occurs. -/
def splitQuery (u : List Char) : List Char × List Char :=
  (u.takeWhile (fun c => c != '?'),
   match u.dropWhile (fun c => c != '?') with
   | [] => []
   | _ :: q => q)

/-- Split a list at its last `/`: `some (a, b)` with `q = a ++ '/' :: b` and
no `/` in `b`, or `none` when there is no `/`. -/
def splitLastSlash : List Char → Option (List Char × List Char)
  | [] => none
  | c :: cs =>
    match splitLastSlash cs with
    | some (a, b) => some (c :: a, b)
    | none => if c == '/' then some ([], cs) else none

/-- CPython `_splitparams`: params start at the first `;` after the last `/`
(or the first `;` at all when there is no `/`). -/
def splitparams (q : List Char) : List Char × List Char :=
  match splitLastSlash q with
  | some (a, b) =>
    match b.dropWhile (fun c => c != ';') with
    | [] => (q, [])
    | _ :: ps => (a ++ '/' :: b.takeWhile (fun c => c != ';'), ps)
  | none =>
    match q.dropWhile (fun c => c != ';') with
    | [] => (q, [])
    | _ :: ps => (q.takeWhile (fun c => c != ';'), ps)

/-- Model of `urlparse` on a string; `none` models a raised exception. -/
def urlparseE (u0 : List Char) : Option UrlParts :=
  let u1 := preClean u0
  let sp := splitScheme u1
  let nl := splitNetloc sp.2
  if bracketMismatch nl.1 then none
  else
    let fr := splitFragment nl.2
    let qr := splitQuery fr.1
    let pp := splitparams qr.1
    some ⟨sp.1, nl.1, pp.1, pp.2, qr.2, fr.2⟩

/-- `_normalize_url` body on a character list:
`f"{parsed.scheme}://{parsed.netloc}{parsed.path}"`, with the bare `except`
returning the input unchanged. -/
def normalizeL (u : List Char) : List Char :=
  match urlparseE u with
  | none => u
  | some r => r.scheme ++ ':' :: '/' :: '/' :: (r.netloc ++ r.path)

/-- `_normalize_url` (lines 37-45) on strings. -/
def _normalize_url (s : String) : String := String.mk (normalizeL s.data)

structure VideoItem where
  index : Nat
  vtype : String
  src : String
  title : String
  description : String
deriving DecidableEq

/-- `_create_video_item`; `title or f"Video {index}"` / `desc or f"Source:
{vtype}"` use Python truthiness, so `none` and the empty string both fall back
to the default. -/
def _create_video_item (url : String) (index : Nat) (vtype : String)
    (title : Option String) (desc : Option String) : VideoItem :=
  { index := index
    vtype := vtype
    src := url
    title := match title with
      | some t => if t = "" then "Video " ++ toString index else t
      | none => "Video " ++ toString index
    description := match desc with
      | some d => if d = "" then "Source: " ++ vtype else d
      | none => "Source: " ++ vtype }

/-! ## Session state and the traffic-observer callbacks (lines 231-278) -/

structure SessionState where
  /-- Contents of the Python set `video_urls`, duplicate-free, in insertion
  order (insertion order is the chronological observation order). -/
  video_urls : List String
  /-- Contents of the Python set `normalized_urls`. -/
  normalized_urls : List String
  /-- The `first_douyinvod_url` slot. -/
  first_douyinvod_url : Option String
  /-- Contents of the Python set `printed_nav`. -/
  printed_nav : List String
  total_requests : Nat
  total_responses : Nat
deriving DecidableEq

/-- The state at line 231-234: empty sets, `first_douyinvod_url = None`. -/
def initialState : SessionState :=
  { video_urls := [], normalized_urls := [], first_douyinvod_url := none,
    printed_nav := [], total_requests := 0, total_responses := 0 }

/-- Python `set.add`: a no-op when the element is present. -/
def insertSet (x : String) (s : List String) : List String :=
  if x ∈ s then s else s ++ [x]

/-- `handle_response` (lines 237-253). -/
def handle_response (st : SessionState) (url : String) : SessionState :=
  let st := { st with total_responses := st.total_responses + 1 }
  if _is_valid_video_url (.str url) then
    { st with
      video_urls := insertSet url st.video_urls
      normalized_urls := insertSet (_normalize_url url) st.normalized_urls }
  else st

/-- `handle_navigation` (lines 255-278). -/
def handle_navigation (st : SessionState) (url : String) : SessionState :=
  let st := { st with total_requests := st.total_requests + 1 }
  if isDouyinvodRaw url then
    let st :=
      match st.first_douyinvod_url with
      | none => { st with first_douyinvod_url := some url }
      | some _ => st
    { st with printed_nav := insertSet url st.printed_nav }
  else if _is_valid_video_url (.str url) then
    { st with printed_nav := insertSet url st.printed_nav }
  else st

/-- A network event delivered to the page's listeners. -/
inductive Event where
  | request (url : String)
  | response (url : String)
deriving DecidableEq

def step (st : SessionState) : Event → SessionState
  | .request u => handle_navigation st u
  | .response u => handle_response st u

/-- Deliver a sequence of network events in order. -/
def processEvents (st : SessionState) (es : List Event) : SessionState :=
  es.foldl step st

/-- The in-page script-extraction fallback (lines 450-511): entered only when
the slot is still empty; `arrivals` are the listener events delivered while
`page.evaluate` is awaited; the result is assigned to the slot with no
re-check of the slot (`js` is `none` when the evaluation raised or matched
nothing). -/
def js_fallback (st : SessionState) (arrivals : List Event)
    (js : Option String) : SessionState :=
  if st.first_douyinvod_url = none then
    let st1 := processEvents st arrivals
    match js with
    | some u =>
      if u ≠ "" && _is_douyinvod_url (.str u) then
        { st1 with first_douyinvod_url := some u }
      else st1
    | none => st1
  else st

/-! ## Result assembly (lines 599-695) -/

/-- One element of the `video_data` array returned by the static-extraction
`page.evaluate` (lines 547-597): `url`, `source`, `type` always present,
`title` only on the `api_extraction` path. -/
structure ExtractedItem where
  url : String
  source : String
  etype : String
  title : Option String
deriving DecidableEq

/-- Accumulator of the merge loops (lines 606-657). -/
structure MergeAcc where
  videos : List VideoItem
  all_urls : List String
  douyinvod_videos : List VideoItem
deriving DecidableEq

/-- One iteration of the network-intercept merge loop (lines 611-630). -/
def addNetworkUrl (acc : MergeAcc) (url : String) : MergeAcc :=
  if !_is_valid_video_url (.str url) then acc
  else
    let normalized := _normalize_url url
    if normalized ∈ acc.all_urls then acc
    else
      let item := _create_video_item url (acc.videos.length + 1) "network_intercept"
        (some ("Network Video " ++ toString (acc.videos.length + 1)))
        (some "Captured from network requests")
      { videos := acc.videos ++ [item]
        all_urls := acc.all_urls ++ [normalized]
        douyinvod_videos :=
          if _is_douyinvod_url (.str url) then acc.douyinvod_videos ++ [item]
          else acc.douyinvod_videos }

/-- One iteration of the page-extraction merge loop (lines 633-657). -/
def addExtractedItem (acc : MergeAcc) (it : ExtractedItem) : MergeAcc :=
  if it.url = "" then acc
  else if !_is_valid_video_url (.str it.url) then acc
  else
    let normalized := _normalize_url it.url
    if normalized ∈ acc.all_urls then acc
    else
      let item := _create_video_item it.url (acc.videos.length + 1) it.etype
        (some (match it.title with
          | some t => t
          | none => "Extracted Video " ++ toString (acc.videos.length + 1)))
        (some ("Source: " ++ it.source))
      { videos := acc.videos ++ [item]
        all_urls := acc.all_urls ++ [normalized]
        douyinvod_videos :=
          if _is_douyinvod_url (.str it.url) then acc.douyinvod_videos ++ [item]
          else acc.douyinvod_videos }

/-- The merged, deduplicated candidate structure (lines 606-657);
`video_urls_iter` is the iteration order of the `video_urls` set. -/
def mergeCandidates (video_urls_iter : List String)
    (video_data : List ExtractedItem) : MergeAcc :=
  video_data.foldl addExtractedItem
    (video_urls_iter.foldl addNetworkUrl ⟨[], [], []⟩)

/-- The item returned for the `first_douyinvod_url` slot (lines 602-603 and
680-681). -/
def firstCapturedItem (u : String) : VideoItem :=
  _create_video_item u 1 "first_captured" (some "First Captured Video")
    (some "First douyinvod.com video URL captured during navigation")

/-- Result assembly on the normal exit path (lines 599-674). -/
def assemble_normal (slot : Option String) (video_urls_iter : List String)
    (video_data : List ExtractedItem) : List VideoItem :=
  match slot with
  | some u => [firstCapturedItem u]
  | none =>
    let acc := mergeCandidates video_urls_iter video_data
    match acc.douyinvod_videos with
    | d :: _ => [d]
    | [] =>
      match acc.videos with
      | v :: _ => [v]
      | [] => []

/-- Result assembly on the error path (lines 675-695); `video_urls_iter` is
the iteration order of the `video_urls` set. -/
def assemble_error (slot : Option String) (video_urls_iter : List String) :
    List VideoItem :=
  match slot with
  | some u => [firstCapturedItem u]
  | none =>
    match video_urls_iter.filter (fun u => _is_douyinvod_url (.str u)) with
    | d :: _ =>
      [_create_video_item d 1 "network_intercept" (some "Network Video")
        (some "Captured from network requests")]
    | [] =>
      match video_urls_iter with
      | v :: _ =>
        [_create_video_item v 1 "network_intercept" (some "Network Video")
          (some "Captured from network requests")]
      | [] => []

/-! ## Spec-side definitions used by refinement claims -/

/-- The classifier as claim C3 words it: the URL's host component matches the
canonical video-delivery host and the path component contains the video-path
marker (host and path taken from the parsed URL). -/
def isHighConfidenceHostPath (s : String) : Bool :=
  match urlparseE s.data with
  | none => false
  | some r =>
    containsSub "douyinvod.com".data (lowerL r.netloc) &&
    containsSub "video".data (lowerL r.path)

/-- The classifier as the code computes it, for the amended C3: plain
substring tests on the whole lowercased URL. -/
def isHighConfidenceSubstr : PyVal → Bool
  | .str s =>
    containsSub "douyinvod.com".data (lowerL s.data) &&
    containsSub "video".data (lowerL s.data)
  | _ => false

/-! ## Predicates used by the proofs -/

/-- A path as produced by `_splitparams`: no `;` after the last `/` (or no
`;` at all when there is no `/`), so a re-split leaves it unchanged. -/
def noParams (p : List Char) : Prop :=
  match splitLastSlash p with
  | some (_, b) => ∀ c ∈ b, (c == ';') = false
  | none => ∀ c ∈ p, (c == ';') = false

/-- The head of the merged video list, when it exists, carries index 1. -/
def headIdxOne (acc : MergeAcc) : Prop :=
  ∀ v, acc.videos.head? = some v → v.index = 1

/-! ## Generic list helpers -/

/-- A `foldl` preserves any invariant preserved by its step function. -/
theorem foldl_inv {α β : Type} (P : β → Prop) (f : β → α → β)
    (hf : ∀ b a, P b → P (f b a)) : ∀ (l : List α) (b : β), P b → P (l.foldl f b)
  | [], _, h => h
  | a :: l, b, h => foldl_inv P f hf l (f b a) (hf b a h)

theorem takeWhile_append_all {α : Type} (q : α → Bool) (xs ys : List α)
    (h : ∀ c ∈ xs, q c = true) :
    (xs ++ ys).takeWhile q = xs ++ ys.takeWhile q := by
  induction xs with
  | nil => rfl
  | cons x xs ih =>
    have hx : q x = true := h x (by simp)
    simp only [List.cons_append, List.takeWhile_cons, hx, if_true]
    rw [ih (fun c hc => h c (by simp [hc]))]

theorem dropWhile_append_all {α : Type} (q : α → Bool) (xs ys : List α)
    (h : ∀ c ∈ xs, q c = true) :
    (xs ++ ys).dropWhile q = ys.dropWhile q := by
  induction xs with
  | nil => rfl
  | cons x xs ih =>
    have hx : q x = true := h x (by simp)
    simp only [List.cons_append, List.dropWhile_cons, hx, if_true]
    exact ih (fun c hc => h c (by simp [hc]))

theorem takeWhile_all {α : Type} (q : α → Bool) (xs : List α)
    (h : ∀ c ∈ xs, q c = true) : xs.takeWhile q = xs := by
  have := takeWhile_append_all q xs [] h
  simpa using this

theorem dropWhile_all {α : Type} (q : α → Bool) (xs : List α)
    (h : ∀ c ∈ xs, q c = true) : xs.dropWhile q = [] := by
  have := dropWhile_append_all q xs [] h
  simpa using this

theorem takeWhile_cons_false {α : Type} (q : α → Bool) (y : α) (ys : List α)
    (h : q y = false) : (y :: ys).takeWhile q = [] := by
  simp [List.takeWhile_cons, h]

theorem dropWhile_cons_false {α : Type} (q : α → Bool) (y : α) (ys : List α)
    (h : q y = false) : (y :: ys).dropWhile q = y :: ys := by
  simp [List.dropWhile_cons, h]

theorem mem_takeWhileL {α : Type} (q : α → Bool) (xs : List α) (c : α)
    (h : c ∈ xs.takeWhile q) : c ∈ xs ∧ q c = true := by
  induction xs with
  | nil => simp at h
  | cons x xs ih =>
    by_cases hx : q x = true
    · rw [List.takeWhile_cons, if_pos hx] at h
      rcases List.mem_cons.mp h with h1 | h2
      · subst h1; exact ⟨by simp, hx⟩
      · rcases ih h2 with ⟨hm, hq⟩
        exact ⟨by simp [hm], hq⟩
    · rw [List.takeWhile_cons, if_neg hx] at h
      simp at h

theorem mem_dropWhileL {α : Type} (q : α → Bool) (xs : List α) (c : α)
    (h : c ∈ xs.dropWhile q) : c ∈ xs := by
  induction xs with
  | nil => simp at h
  | cons x xs ih =>
    by_cases hx : q x = true
    · rw [List.dropWhile_cons, if_pos hx] at h
      exact List.mem_cons_of_mem x (ih h)
    · rw [List.dropWhile_cons, if_neg hx] at h
      exact h

theorem dropWhile_shape {α : Type} (q : α → Bool) (l : List α) :
    l.dropWhile q = [] ∨
    ∃ c t, l.dropWhile q = c :: t ∧ q c = false := by
  induction l with
  | nil => left; rfl
  | cons x xs ih =>
    by_cases hx : q x = true
    · rw [List.dropWhile_cons, if_pos hx]; exact ih
    · rw [List.dropWhile_cons, if_neg hx]
      right; exact ⟨x, xs, rfl, by simpa using hx⟩

/-- A permutation of a two-element list is one of the two arrangements. -/
theorem perm_pair {α : Type} (a b : α) (l : List α) (h : List.Perm l [a, b]) :
    l = [a, b] ∨ l = [b, a] := by
  have hlen : l.length = 2 := by simpa using h.length_eq
  match l, hlen with
  | [x, y], _ =>
    have hx : x ∈ [a, b] := h.mem_iff.mp (by simp)
    have hy : y ∈ [a, b] := h.mem_iff.mp (by simp)
    have ha : a ∈ [x, y] := h.mem_iff.mpr (by simp)
    have hb : b ∈ [x, y] := h.mem_iff.mpr (by simp)
    simp only [List.mem_cons, List.mem_singleton, List.not_mem_nil, or_false] at hx hy ha hb
    rcases hx with hx | hx <;> rcases hy with hy | hy <;> subst hx <;> subst hy
    · rcases hb with hb | hb <;> simp [hb]
    · left; rfl
    · right; rfl
    · rcases ha with ha | ha <;> simp [ha]

/-! ## Character lemmas -/

theorem char_eq_iff_toNat (c d : Char) : c = d ↔ c.toNat = d.toNat := by
  constructor
  · intro h; rw [h]
  · intro h
    rw [← Char.ofNat_toNat c, ← Char.ofNat_toNat d, h]

theorem char_beq_iff_toNat (c d : Char) : (c == d) = true ↔ c.toNat = d.toNat := by
  rw [beq_iff_eq]; exact char_eq_iff_toNat c d

theorem toLower_toNat (c : Char) :
    (Char.toLower c).toNat =
      if 65 ≤ c.toNat ∧ c.toNat ≤ 90 then c.toNat + 32 else c.toNat := by
  unfold Char.toLower
  by_cases h : 65 ≤ c.toNat ∧ c.toNat ≤ 90
  · rw [if_pos ⟨h.1, h.2⟩, if_pos h]
    obtain ⟨h1, h2⟩ := h
    generalize c.toNat = n at h1 h2 ⊢
    interval_cases n <;> decide
  · rw [if_neg ?hneg, if_neg h]
    intro hc
    exact h ⟨hc.1, hc.2⟩

theorem toLower_eq_self (c : Char) (h : ¬(65 ≤ c.toNat ∧ c.toNat ≤ 90)) :
    Char.toLower c = c := by
  unfold Char.toLower
  rw [if_neg ?hneg]
  intro hc
  exact h ⟨hc.1, hc.2⟩

theorem toLower_toLower (c : Char) :
    Char.toLower (Char.toLower c) = Char.toLower c := by
  by_cases h : 65 ≤ c.toNat ∧ c.toNat ≤ 90
  · apply toLower_eq_self
    rw [toLower_toNat c, if_pos h]
    omega
  · rw [toLower_eq_self c h, toLower_eq_self c h]

theorem lowerL_lowerL (l : List Char) : lowerL (lowerL l) = lowerL l := by
  unfold lowerL
  rw [List.map_map]
  apply List.map_congr_left
  intro c _
  exact toLower_toLower c

theorem lowerL_isEmpty (l : List Char) : (lowerL l).isEmpty = l.isEmpty := by
  cases l <;> rfl

/-! ## Slot-preservation lemmas for the traffic observer -/

theorem handle_response_slot (st : SessionState) (u : String) :
    (handle_response st u).first_douyinvod_url = st.first_douyinvod_url := by
  unfold handle_response
  split <;> rfl

theorem handle_navigation_slot (st : SessionState) (u a : String)
    (h : st.first_douyinvod_url = some a) :
    (handle_navigation st u).first_douyinvod_url = some a := by
  unfold handle_navigation
  simp only [h]
  split
  · rfl
  · split <;> rfl

/-! ## Claim theorems -/

/-- Claim C1: whenever the `first_douyinvod_url` slot is set at result-assembly
time, both the normal path and the error path of `analyze_douyin_page` return
exactly one item built from the slot, with `src` equal to the slot's URL and
kind `first_captured`, never an item built from another candidate. -/
theorem C1_slot_first_captured (slot : Option String) (u : String)
    (iter : List String) (data : List ExtractedItem) (h : slot = some u) :
    assemble_normal slot iter data = [firstCapturedItem u] ∧
    assemble_error slot iter = [firstCapturedItem u] ∧
    (firstCapturedItem u).src = u ∧
    (firstCapturedItem u).vtype = "first_captured" ∧
    (firstCapturedItem u).index = 1 := by
  subst h
  exact ⟨rfl, rfl, rfl, rfl, rfl⟩

/-- Witness for C1 at a concrete slot value. -/
theorem C1_slot_first_captured_witness :
    assemble_normal (some "https://douyinvod.com/video/a")
        ["http://x/y.mp4"] [] =
      [firstCapturedItem "https://douyinvod.com/video/a"] ∧
    assemble_error (some "https://douyinvod.com/video/a") ["http://x/y.mp4"] =
      [firstCapturedItem "https://douyinvod.com/video/a"] ∧
    (firstCapturedItem "https://douyinvod.com/video/a").src =
      "https://douyinvod.com/video/a" ∧
    (firstCapturedItem "https://douyinvod.com/video/a").vtype = "first_captured" ∧
    (firstCapturedItem "https://douyinvod.com/video/a").index = 1 :=
  C1_slot_first_captured _ "https://douyinvod.com/video/a" ["http://x/y.mp4"] [] rfl

/-- Claim C2 counterexample: a URL on the high-confidence host with a video
path marker that also contains the decoy marker `bg`; `_is_douyinvod_url`
accepts it but `_is_valid_video_url` rejects it, so high confidence does not
imply validity. -/
theorem C2_counterexample :
    _is_douyinvod_url (.str "douyinvod.com/videobg") = true ∧
    _is_valid_video_url (.str "douyinvod.com/videobg") = false := by
  exact ⟨rfl, rfl⟩

/-- Claim C2 (amended): for URLs containing no decoy skip-word,
`_is_douyinvod_url = true` implies `_is_valid_video_url = true`. -/
theorem C2_amended (s : String)
    (hskip : ∀ w ∈ skip_words, containsSub w (lowerL s.data) = false)
    (h : _is_douyinvod_url (.str s) = true) :
    _is_valid_video_url (.str s) = true := by
  show _is_valid_video_url_l s.data = true
  have h' : _is_douyinvod_url_l s.data = true := h
  unfold _is_douyinvod_url_l at h'
  by_cases he : s.data.isEmpty = true
  · rw [if_pos he] at h'
    exact absurd h' (by simp)
  · rw [if_neg he] at h'
    have hany : (skip_words.any fun w => containsSub w (lowerL s.data)) = false := by
      rw [List.any_eq_false]
      intro w hw
      simp [hskip w hw]
    unfold _is_valid_video_url_l
    rw [if_neg he]
    simp only [hany, Bool.false_eq_true, if_false, h', if_true]

/-- Witness for the amended C2 at a concrete high-confidence URL. -/
theorem C2_amended_witness :
    _is_valid_video_url (.str "https://douyinvod.com/video/a") = true :=
  C2_amended "https://douyinvod.com/video/a" (by decide) (by decide)

/-- Claim C3 counterexample: `_is_douyinvod_url` is a substring test on the
whole URL, so a URL whose host is not the video-delivery host but whose query
string contains the markers is still classified high-confidence, contradicting
the host/path reading. -/
theorem C3_counterexample :
    _is_douyinvod_url (.str "http://e/a?douyinvod.com-video") = true ∧
    isHighConfidenceHostPath "http://e/a?douyinvod.com-video" = false := by
  exact ⟨rfl, rfl⟩

/-- Claim C3 (amended): `_is_douyinvod_url` is true iff the lowercased URL
contains `douyinvod.com` and `video` as substrings anywhere in the URL (not
specifically in the host and path components). -/
theorem C3_amended (v : PyVal) : _is_douyinvod_url v = isHighConfidenceSubstr v := by
  cases v with
  | nonstr => rfl
  | bytes s => rfl
  | falsy => rfl
  | str s =>
    show _is_douyinvod_url_l s.data =
      (containsSub "douyinvod.com".data (lowerL s.data) &&
       containsSub "video".data (lowerL s.data))
    unfold _is_douyinvod_url_l
    by_cases he : s.data.isEmpty = true
    · rw [if_pos he]
      have hnil : s.data = [] := by
        cases hd : s.data
        · rfl
        · rw [hd] at he; simp at he
      rw [hnil]
      rfl
    · rw [if_neg he]

/-- Claim C4 counterexample: two valid low-confidence URLs with the same
normalized form are observed, the plain URL first; `video_urls` is a Python
set, whose iteration order need not be the insertion order, and under the
(reachable) enumeration that yields the query-string variant first the single
assembled item carries the second-observed raw URL. -/
theorem C4_counterexample :
    (processEvents initialState
        [.response "http://a/clip1.mp4",
         .response "http://a/clip1.mp4?sig=xyz"]).video_urls =
      ["http://a/clip1.mp4", "http://a/clip1.mp4?sig=xyz"] ∧
    (processEvents initialState
        [.response "http://a/clip1.mp4",
         .response "http://a/clip1.mp4?sig=xyz"]).first_douyinvod_url = none ∧
    List.Perm ["http://a/clip1.mp4?sig=xyz", "http://a/clip1.mp4"]
      ["http://a/clip1.mp4", "http://a/clip1.mp4?sig=xyz"] ∧
    (assemble_normal none
        ["http://a/clip1.mp4?sig=xyz", "http://a/clip1.mp4"] []).map
        (fun i => i.src) =
      ["http://a/clip1.mp4?sig=xyz"] ∧
    ("http://a/clip1.mp4?sig=xyz" : String) ≠ "http://a/clip1.mp4" := by
  refine ⟨rfl, rfl, List.Perm.swap "http://a/clip1.mp4" "http://a/clip1.mp4?sig=xyz" [], rfl, by decide⟩

/-- Claim C4 (amended): in the two-URL low-confidence scenario the result is
always exactly one item whose `src` is whichever raw URL the set enumeration
yields first (both collapse to the same normalized entry); the code does not
guarantee the chronologically first-observed URL because `video_urls` is an
unordered set. -/
theorem C4_amended (order : List String)
    (h : List.Perm order (processEvents initialState
        [.response "http://a/clip1.mp4",
         .response "http://a/clip1.mp4?sig=xyz"]).video_urls) :
    ∃ w, (w = "http://a/clip1.mp4" ∨ w = "http://a/clip1.mp4?sig=xyz") ∧
      order.head? = some w ∧
      assemble_normal none order [] =
        [_create_video_item w 1 "network_intercept" (some "Network Video 1")
          (some "Captured from network requests")] ∧
      _normalize_url w = "http://a/clip1.mp4" := by
  have hv : (processEvents initialState
      [.response "http://a/clip1.mp4",
       .response "http://a/clip1.mp4?sig=xyz"]).video_urls =
      ["http://a/clip1.mp4", "http://a/clip1.mp4?sig=xyz"] := rfl
  rw [hv] at h
  rcases perm_pair _ _ _ h with h1 | h1 <;> subst h1
  · exact ⟨"http://a/clip1.mp4", Or.inl rfl, rfl, rfl, rfl⟩
  · exact ⟨"http://a/clip1.mp4?sig=xyz", Or.inr rfl, rfl, rfl, rfl⟩

/-- Witness for the amended C4 at the reversed enumeration. -/
theorem C4_amended_witness :
    ∃ w, (w = "http://a/clip1.mp4" ∨ w = "http://a/clip1.mp4?sig=xyz") ∧
      (["http://a/clip1.mp4?sig=xyz", "http://a/clip1.mp4"] : List String).head? = some w ∧
      assemble_normal none ["http://a/clip1.mp4?sig=xyz", "http://a/clip1.mp4"] [] =
        [_create_video_item w 1 "network_intercept" (some "Network Video 1")
          (some "Captured from network requests")] ∧
      _normalize_url w = "http://a/clip1.mp4" :=
  C4_amended ["http://a/clip1.mp4?sig=xyz", "http://a/clip1.mp4"]
    (List.Perm.swap "http://a/clip1.mp4" "http://a/clip1.mp4?sig=xyz" [])

/-- Claim C5 counterexample: when a non-douyinvod valid video is merged before
a douyinvod video, the returned douyinvod item keeps its creation index `2`,
so a non-empty result does not always carry index 1. -/
theorem C5_counterexample :
    (assemble_normal none
        ["http://cdn.ex/a.mp4", "https://douyinvod.com/video/b"] []).map
        (fun i => i.index) = [2] ∧
    (2 : Nat) ≠ 1 := by
  exact ⟨rfl, by decide⟩

theorem head_append_one {α : Type} {x v : α} {l : List α}
    (hv : (l ++ [x]).head? = some v) : l.head? = some v ∨ (l = [] ∧ v = x) := by
  cases l with
  | nil =>
    simp only [List.nil_append, List.head?] at hv
    injection hv with hv
    exact Or.inr ⟨rfl, hv.symm⟩
  | cons w ws =>
    simp only [List.cons_append, List.head?] at hv ⊢
    exact Or.inl hv

theorem addNetworkUrl_videos (acc : MergeAcc) (u : String) :
    (addNetworkUrl acc u).videos = acc.videos ∨
    ∃ x, (addNetworkUrl acc u).videos = acc.videos ++ [x] ∧
      x.index = acc.videos.length + 1 := by
  unfold addNetworkUrl
  dsimp only
  split
  · left; rfl
  · split
    · left; rfl
    · right
      exact ⟨_create_video_item u (acc.videos.length + 1) "network_intercept"
        (some ("Network Video " ++ toString (acc.videos.length + 1)))
        (some "Captured from network requests"), rfl, rfl⟩

theorem addExtractedItem_videos (acc : MergeAcc) (it : ExtractedItem) :
    (addExtractedItem acc it).videos = acc.videos ∨
    ∃ x, (addExtractedItem acc it).videos = acc.videos ++ [x] ∧
      x.index = acc.videos.length + 1 := by
  unfold addExtractedItem
  dsimp only
  split
  · left; rfl
  · split
    · left; rfl
    · split
      · left; rfl
      · right
        exact ⟨_create_video_item it.url (acc.videos.length + 1) it.etype
          (some (match it.title with
            | some t => t
            | none => "Extracted Video " ++ toString (acc.videos.length + 1)))
          (some ("Source: " ++ it.source)), rfl, rfl⟩

theorem headIdxOne_addNetworkUrl (acc : MergeAcc) (u : String)
    (h : headIdxOne acc) : headIdxOne (addNetworkUrl acc u) := by
  intro v hv
  rcases addNetworkUrl_videos acc u with heq | ⟨x, heq, hidx⟩
  · rw [heq] at hv
    exact h v hv
  · rw [heq] at hv
    rcases head_append_one hv with h1 | ⟨hnil, hvx⟩
    · exact h v h1
    · rw [hvx, hidx, hnil]
      rfl

theorem headIdxOne_addExtractedItem (acc : MergeAcc) (it : ExtractedItem)
    (h : headIdxOne acc) : headIdxOne (addExtractedItem acc it) := by
  intro v hv
  rcases addExtractedItem_videos acc it with heq | ⟨x, heq, hidx⟩
  · rw [heq] at hv
    exact h v hv
  · rw [heq] at hv
    rcases head_append_one hv with h1 | ⟨hnil, hvx⟩
    · exact h v h1
    · rw [hvx, hidx, hnil]
      rfl

theorem mergeCandidates_head_index (iter : List String)
    (data : List ExtractedItem) : headIdxOne (mergeCandidates iter data) := by
  unfold mergeCandidates
  apply foldl_inv headIdxOne addExtractedItem headIdxOne_addExtractedItem
  apply foldl_inv headIdxOne addNetworkUrl headIdxOne_addNetworkUrl
  intro v hv
  simp at hv

/-- Claim C5 (amended): every exit path returns at most one item; on the
error path and the slot path the item's index is 1; on the merged-candidates
path the item's index is 1 unless the returned item is the first douyinvod
video of the merged list, which keeps the index it was created with. -/
theorem C5_amended (slot : Option String) (iter : List String)
    (data : List ExtractedItem) :
    (assemble_normal slot iter data).length ≤ 1 ∧
    (assemble_error slot iter).length ≤ 1 ∧
    (∀ it ∈ assemble_error slot iter, it.index = 1) ∧
    (∀ it ∈ assemble_normal slot iter data,
      it.index = 1 ∨
      (mergeCandidates iter data).douyinvod_videos.head? = some it) := by
  refine ⟨?_, ?_, ?_, ?_⟩
  · unfold assemble_normal
    dsimp only
    split
    · simp
    · split
      · simp
      · split <;> simp
  · unfold assemble_error
    split
    · simp
    · split
      · simp
      · split <;> simp
  · intro it hit
    unfold assemble_error at hit
    split at hit
    · simp only [List.mem_singleton] at hit
      rw [hit]
      rfl
    · split at hit
      · simp only [List.mem_singleton] at hit
        rw [hit]
        rfl
      · split at hit
        · simp only [List.mem_singleton] at hit
          rw [hit]
          rfl
        · simp at hit
  · intro it hit
    unfold assemble_normal at hit
    dsimp only at hit
    split at hit
    · simp only [List.mem_singleton] at hit
      left
      rw [hit]
      rfl
    · split at hit
      · next hdv =>
        right
        simp only [List.mem_singleton] at hit
        rw [hit, hdv]
        rfl
      · split at hit
        · next hvv =>
          simp only [List.mem_singleton] at hit
          subst hit
          left
          apply mergeCandidates_head_index iter data
          rw [hvv]
          rfl
        · simp at hit

/-- Witness for the amended C5 at a concrete slot and candidate set. -/
theorem C5_amended_witness :
    (firstCapturedItem "u").index = 1 ∨
    (mergeCandidates ["http://x/y.mp4"] []).douyinvod_videos.head? =
      some (firstCapturedItem "u") :=
  (C5_amended (some "u") ["http://x/y.mp4"] []).2.2.2 (firstCapturedItem "u")
    (by decide)

/-- Claim C6 counterexample: the script-extraction fallback checks the slot,
awaits the in-page evaluation, and then assigns its result without re-checking
the slot; so when a high-confidence request URL arrives during the await
(setting the slot to the first chronologically observed high-confidence URL),
the evaluation result overwrites it, violating set-at-most-once. -/
theorem C6_counterexample :
    (processEvents initialState
        [.request "https://douyinvod.com/video/a"]).first_douyinvod_url =
      some "https://douyinvod.com/video/a" ∧
    (js_fallback initialState [.request "https://douyinvod.com/video/a"]
        (some "https://douyinvod.com/video/b")).first_douyinvod_url =
      some "https://douyinvod.com/video/b" ∧
    ("https://douyinvod.com/video/a" : String) ≠
      "https://douyinvod.com/video/b" := by
  exact ⟨rfl, rfl, by decide⟩

/-- Claim C6 (amended): across request/response listener events the slot is
first-write-wins — once set it is never changed by `handle_navigation` or
`handle_response`; only the script-fallback assignment, which does not
re-check the slot after its await, can replace it. -/
theorem C6_amended (st : SessionState) (es : List Event) (a : String)
    (h : st.first_douyinvod_url = some a) :
    (processEvents st es).first_douyinvod_url = some a := by
  induction es generalizing st with
  | nil => exact h
  | cons e es ih =>
    show (processEvents (step st e) es).first_douyinvod_url = some a
    apply ih
    cases e with
    | request u => exact handle_navigation_slot st u a h
    | response u =>
      rw [show step st (.response u) = handle_response st u from rfl,
        handle_response_slot]
      exact h

/-- Witness for the amended C6 on a concrete event trace. -/
theorem C6_amended_witness :
    (processEvents
        { initialState with
          first_douyinvod_url := some "https://douyinvod.com/video/a" }
        [.request "https://douyinvod.com/video/b",
         .response "http://x/y.mp4"]).first_douyinvod_url =
      some "https://douyinvod.com/video/a" :=
  C6_amended _ _ "https://douyinvod.com/video/a" rfl

/-- Claim C7 counterexample: `_normalize_url` is not idempotent on all
strings — on the empty string it yields `://`, and normalizing `://` yields
`://://`; the query/fragment stripping example itself does hold. -/
theorem C7_counterexample :
    _normalize_url "" = "://" ∧
    _normalize_url (_normalize_url "") = "://://" ∧
    _normalize_url (_normalize_url "") ≠ _normalize_url "" ∧
    _normalize_url "https://h/p?x=1#y" = "https://h/p" := by
  exact ⟨rfl, rfl, by decide, rfl⟩

/-- Claim C9: when navigation fails with zero observed traffic the error path
returns the empty list (no unhandled error escapes the model, which is total);
in general, every item the error path returns is built from a captured
candidate: the slot value or a member of the intercepted set. -/
theorem C9_nav_failure :
    ((processEvents initialState []).first_douyinvod_url = none ∧
     (processEvents initialState []).video_urls = [] ∧
     assemble_error none [] = []) ∧
    (∀ (slot : Option String) (iter : List String) (it : VideoItem),
      it ∈ assemble_error slot iter → slot = some it.src ∨ it.src ∈ iter) := by
  refine ⟨⟨rfl, rfl, rfl⟩, ?_⟩
  intro slot iter it hit
  unfold assemble_error at hit
  split at hit
  · next u =>
    simp only [List.mem_singleton] at hit
    left
    rw [hit]
    rfl
  · split at hit
    · next d t hf =>
      simp only [List.mem_singleton] at hit
      right
      have hd : d ∈ iter.filter (fun u => _is_douyinvod_url (.str u)) := by
        rw [hf]
        simp
      have hsrc : it.src = d := by rw [hit]; rfl
      rw [hsrc]
      exact List.mem_of_mem_filter hd
    · split at hit
      · next v tv hv =>
        simp only [List.mem_singleton] at hit
        right
        have hsrc : it.src = v := by rw [hit]; rfl
        rw [hsrc]
        exact List.mem_cons_self v tv
      · simp at hit

/-- Witness for C9 at a concrete error-path state. -/
theorem C9_nav_failure_witness :
    (some "u" : Option String) = some (firstCapturedItem "u").src ∨
    (firstCapturedItem "u").src ∈ ([] : List String) :=
  C9_nav_failure.2 (some "u") [] (firstCapturedItem "u") (by decide)

/-- Claim C10: both classifiers are invariant under lowercasing their input,
because each lowercases the URL before any substring test. -/
theorem C10_case_insensitive (s : String) :
    _is_valid_video_url (.str (pyLower s)) = _is_valid_video_url (.str s) ∧
    _is_douyinvod_url (.str (pyLower s)) = _is_douyinvod_url (.str s) := by
  constructor
  · show _is_valid_video_url_l (lowerL s.data) = _is_valid_video_url_l s.data
    unfold _is_valid_video_url_l
    rw [lowerL_isEmpty, lowerL_lowerL]
  · show _is_douyinvod_url_l (lowerL s.data) = _is_douyinvod_url_l s.data
    unfold _is_douyinvod_url_l
    rw [lowerL_isEmpty, lowerL_lowerL]

/-! ## Character facts for the normalizer roundtrip -/

theorem schemeChar_toNat (c : Char) :
    schemeChar c = true ↔
      (65 ≤ c.toNat ∧ c.toNat ≤ 90) ∨ (97 ≤ c.toNat ∧ c.toNat ≤ 122) ∨
      (48 ≤ c.toNat ∧ c.toNat ≤ 57) ∨ c.toNat = 43 ∨ c.toNat = 45 ∨ c.toNat = 46 := by
  simp [schemeChar, Bool.or_eq_true, Bool.and_eq_true, decide_eq_true_eq, or_assoc]

theorem asciiAlpha_toNat (c : Char) :
    asciiAlpha c = true ↔
      (65 ≤ c.toNat ∧ c.toNat ≤ 90) ∨ (97 ≤ c.toNat ∧ c.toNat ≤ 122) := by
  simp [asciiAlpha, Bool.or_eq_true, Bool.and_eq_true, decide_eq_true_eq]

theorem ctrlChar_toNat (c : Char) :
    ctrlChar c = false ↔ c.toNat ≠ 9 ∧ c.toNat ≠ 13 ∧ c.toNat ≠ 10 := by
  simp [ctrlChar, Bool.or_eq_false_iff, and_assoc]

theorem char_bne_of_toNat_ne (c d : Char) (h : c.toNat ≠ d.toNat) :
    (c != d) = true := by
  simp only [bne_iff_ne, ne_eq]
  intro he
  exact h (by rw [he])

theorem schemeChar_toLower (c : Char) (h : schemeChar c = true) :
    schemeChar (Char.toLower c) = true := by
  rw [schemeChar_toNat] at h ⊢
  rw [toLower_toNat]
  by_cases hr : 65 ≤ c.toNat ∧ c.toNat ≤ 90
  · rw [if_pos hr]; omega
  · rw [if_neg hr]; omega

theorem asciiAlpha_toLower (c : Char) (h : asciiAlpha c = true) :
    asciiAlpha (Char.toLower c) = true := by
  rw [asciiAlpha_toNat] at h ⊢
  rw [toLower_toNat]
  by_cases hr : 65 ≤ c.toNat ∧ c.toNat ≤ 90
  · rw [if_pos hr]; omega
  · rw [if_neg hr]; omega

theorem schemeChar_ne_colon (c : Char) (h : schemeChar c = true) :
    (c != ':') = true := by
  apply char_bne_of_toNat_ne
  rw [schemeChar_toNat] at h
  have : (':' : Char).toNat = 58 := by decide
  omega

theorem schemeChar_not_ctrl (c : Char) (h : schemeChar c = true) :
    ctrlChar c = false := by
  rw [schemeChar_toNat] at h
  rw [ctrlChar_toNat]
  omega

theorem validScheme_map_toLower (l : List Char) (h : validScheme l = true) :
    validScheme (l.map Char.toLower) = true := by
  cases l with
  | nil => simp [validScheme] at h
  | cons c cs =>
    rw [List.map_cons]
    unfold validScheme at h ⊢
    rw [Bool.and_eq_true] at h ⊢
    obtain ⟨h1, h2⟩ := h
    refine ⟨asciiAlpha_toLower c h1, ?_⟩
    rw [show Char.toLower c :: cs.map Char.toLower = (c :: cs).map Char.toLower from rfl]
    rw [List.all_map]
    rw [List.all_eq_true] at h2 ⊢
    intro x hx
    exact schemeChar_toLower x (h2 x hx)

theorem map_toLower_map_toLower (l : List Char) :
    (l.map Char.toLower).map Char.toLower = l.map Char.toLower := by
  rw [List.map_map]
  apply List.map_congr_left
  intro c _
  exact toLower_toLower c

theorem not_netlocDelim_no_slash (c : Char) (h : (!netlocDelim c) = true) :
    (c == '/') = false := by
  simp only [netlocDelim, Bool.not_eq_true', Bool.or_eq_false_iff] at h
  exact h.1.1

/-! ## splitLastSlash and splitparams lemmas -/

theorem noSlash_splitLastSlash (l : List Char)
    (h : ∀ c ∈ l, (c == '/') = false) : splitLastSlash l = none := by
  induction l with
  | nil => rfl
  | cons c cs ih =>
    unfold splitLastSlash
    rw [ih (fun x hx => h x (List.mem_cons_of_mem c hx))]
    rw [h c (List.mem_cons_self c cs)]
    rfl

theorem splitLastSlash_none_no_slash (l : List Char)
    (h : splitLastSlash l = none) : ∀ c ∈ l, (c == '/') = false := by
  induction l with
  | nil => intro c hc; simp at hc
  | cons c cs ih =>
    unfold splitLastSlash at h
    cases hcs : splitLastSlash cs with
    | some ab =>
      obtain ⟨a, b⟩ := ab
      rw [hcs] at h
      cases h
    | none =>
      rw [hcs] at h
      by_cases hc : (c == '/') = true
      · rw [hc] at h; cases h
      · intro x hx
        rcases List.mem_cons.mp hx with hx | hx
        · subst hx
          exact Bool.not_eq_true _ ▸ hc
        · exact ih hcs x hx

theorem splitLastSlash_some_shape (q a b : List Char)
    (h : splitLastSlash q = some (a, b)) :
    q = a ++ '/' :: b ∧ ∀ c ∈ b, (c == '/') = false := by
  induction q generalizing a b with
  | nil => cases h
  | cons c cs ih =>
    unfold splitLastSlash at h
    cases hcs : splitLastSlash cs with
    | some ab =>
      obtain ⟨a0, b0⟩ := ab
      rw [hcs] at h
      simp only [] at h
      injection h with h
      injection h with h1 h2
      subst h2
      subst h1
      obtain ⟨he, hb⟩ := ih a0 b0 hcs
      exact ⟨by rw [List.cons_append, ← he], hb⟩
    | none =>
      rw [hcs] at h
      by_cases hc : (c == '/') = true
      · simp only [hc, if_true] at h
        injection h with h
        injection h with h1 h2
        subst h2
        subst h1
        have hce : c = '/' := by simpa using hc
        subst hce
        exact ⟨rfl, splitLastSlash_none_no_slash cs hcs⟩
      · simp only [Bool.not_eq_true] at hc
        simp only [hc, Bool.false_eq_true, if_false] at h
        cases h

theorem splitLastSlash_mk (a b : List Char)
    (hb : ∀ c ∈ b, (c == '/') = false) :
    splitLastSlash (a ++ '/' :: b) = some (a, b) := by
  induction a with
  | nil =>
    rw [List.nil_append]
    unfold splitLastSlash
    rw [noSlash_splitLastSlash b hb]
    rfl
  | cons c a1 ih =>
    rw [List.cons_append]
    unfold splitLastSlash
    rw [ih]

theorem splitLastSlash_append_left (xs ys a b : List Char)
    (h : splitLastSlash ys = some (a, b)) :
    splitLastSlash (xs ++ ys) = some (xs ++ a, b) := by
  obtain ⟨he, hb⟩ := splitLastSlash_some_shape ys a b h
  rw [he, ← List.append_assoc]
  exact splitLastSlash_mk (xs ++ a) b hb

theorem splitLastSlash_cons_slash (t : List Char) :
    ∃ a b, splitLastSlash ('/' :: t) = some (a, b) := by
  unfold splitLastSlash
  cases h : splitLastSlash t with
  | some ab =>
    obtain ⟨a, b⟩ := ab
    exact ⟨'/' :: a, b, rfl⟩
  | none => exact ⟨[], t, rfl⟩

theorem dropWhile_nil_all {α : Type} (q : α → Bool) (l : List α)
    (h : l.dropWhile q = []) : ∀ c ∈ l, q c = true := by
  induction l with
  | nil => intro c hc; simp at hc
  | cons x xs ih =>
    rw [List.dropWhile_cons] at h
    by_cases hx : q x = true
    · rw [if_pos hx] at h
      intro c hc
      rcases List.mem_cons.mp hc with hc | hc
      · subst hc; exact hx
      · exact ih h c hc
    · rw [if_neg hx] at h
      cases h

theorem bne_semi_of_beq_false (c : Char) (h : (c == ';') = false) :
    (c != ';') = true := by
  simp [bne, h]

theorem beq_semi_of_bne_true (c : Char) (h : (c != ';') = true) :
    (c == ';') = false := by
  simpa [bne] using h

theorem splitparams_of_noParams (q : List Char) (h : noParams q) :
    splitparams q = (q, []) := by
  unfold splitparams
  unfold noParams at h
  cases hs : splitLastSlash q with
  | some ab =>
    obtain ⟨a, b⟩ := ab
    rw [hs] at h
    simp only [] at h ⊢
    rw [dropWhile_all _ b (fun c hc => bne_semi_of_beq_false c (h c hc))]
  | none =>
    rw [hs] at h
    simp only [] at h ⊢
    rw [dropWhile_all _ q (fun c hc => bne_semi_of_beq_false c (h c hc))]

theorem noParams_splitparams_fst (q : List Char) :
    noParams (splitparams q).1 := by
  unfold splitparams
  cases hs : splitLastSlash q with
  | some ab =>
    obtain ⟨a, b⟩ := ab
    obtain ⟨he, hb⟩ := splitLastSlash_some_shape q a b hs
    simp only []
    cases hd : b.dropWhile (fun c => c != ';') with
    | nil =>
      simp only []
      unfold noParams
      rw [hs]
      intro c hc
      exact beq_semi_of_bne_true c (dropWhile_nil_all _ b hd c hc)
    | cons x xs =>
      simp only []
      unfold noParams
      have hb1 : ∀ c ∈ b.takeWhile (fun c => c != ';'), (c == '/') = false :=
        fun c hc => hb c (mem_takeWhileL _ b c hc).1
      rw [splitLastSlash_mk a _ hb1]
      intro c hc
      exact beq_semi_of_bne_true c (mem_takeWhileL _ b c hc).2
  | none =>
    simp only []
    cases hd : q.dropWhile (fun c => c != ';') with
    | nil =>
      simp only []
      unfold noParams
      rw [hs]
      intro c hc
      exact beq_semi_of_bne_true c (dropWhile_nil_all _ q hd c hc)
    | cons x xs =>
      simp only []
      unfold noParams
      have hnos : ∀ c ∈ q.takeWhile (fun c => c != ';'), (c == '/') = false :=
        fun c hc => splitLastSlash_none_no_slash q hs c (mem_takeWhileL _ q c hc).1
      rw [noSlash_splitLastSlash _ hnos]
      intro c hc
      exact beq_semi_of_bne_true c (mem_takeWhileL _ q c hc).2

theorem mem_splitparams_fst (q : List Char) (c : Char)
    (hc : c ∈ (splitparams q).1) : c ∈ q := by
  unfold splitparams at hc
  cases hs : splitLastSlash q with
  | some ab =>
    obtain ⟨a, b⟩ := ab
    obtain ⟨he, hb⟩ := splitLastSlash_some_shape q a b hs
    rw [hs] at hc
    simp only [] at hc
    cases hd : b.dropWhile (fun c => c != ';') with
    | nil =>
      rw [hd] at hc
      simp only [] at hc
      exact hc
    | cons x xs =>
      rw [hd] at hc
      simp only [] at hc
      rw [he]
      rcases List.mem_append.mp hc with hc | hc
      · exact List.mem_append.mpr (Or.inl hc)
      · rcases List.mem_cons.mp hc with hc | hc
        · subst hc
          exact List.mem_append.mpr (Or.inr (List.mem_cons_self _ _))
        · exact List.mem_append.mpr (Or.inr (List.mem_cons_of_mem _
            (mem_takeWhileL _ b c hc).1))
  | none =>
    rw [hs] at hc
    simp only [] at hc
    cases hd : q.dropWhile (fun c => c != ';') with
    | nil =>
      rw [hd] at hc
      simp only [] at hc
      exact hc
    | cons x xs =>
      rw [hd] at hc
      simp only [] at hc
      exact (mem_takeWhileL _ q c hc).1

theorem splitparams_slash_fst (y : List Char) :
    ∃ t, (splitparams ('/' :: y)).1 = '/' :: t := by
  unfold splitparams
  obtain ⟨a, b, hs⟩ := splitLastSlash_cons_slash y
  obtain ⟨he, hb⟩ := splitLastSlash_some_shape _ a b hs
  rw [hs]
  simp only []
  cases hd : b.dropWhile (fun c => c != ';') with
  | nil =>
    simp only []
    exact ⟨y, rfl⟩
  | cons x xs =>
    simp only []
    cases a with
    | nil =>
      rw [List.nil_append] at he ⊢
      exact ⟨b.takeWhile (fun c => c != ';'), rfl⟩
    | cons c1 a1 =>
      have hc1 : c1 = '/' := by
        have hh := congrArg (fun l => l.head?) he
        simp at hh
        exact hh.symm
      subst hc1
      exact ⟨a1 ++ '/' :: b.takeWhile (fun c => c != ';'), rfl⟩

/-! ## Facts extracted from a successful parse -/

theorem urlparseE_some (u : List Char) (r : UrlParts) (h : urlparseE u = some r) :
    r.scheme = (splitScheme (preClean u)).1 ∧
    r.netloc = (splitNetloc (splitScheme (preClean u)).2).1 ∧
    bracketMismatch r.netloc = false ∧
    r.path = (splitparams (splitQuery (splitFragment
      (splitNetloc (splitScheme (preClean u)).2).2).1).1).1 := by
  unfold urlparseE at h
  by_cases hb : bracketMismatch (splitNetloc (splitScheme (preClean u)).2).1 = true
  · rw [if_pos hb] at h
    cases h
  · rw [if_neg hb] at h
    injection h with h
    subst h
    exact ⟨rfl, rfl, by simpa using hb, rfl⟩

theorem splitScheme_fst_spec (u : List Char) :
    (splitScheme u).1 = [] ∨
    (validScheme (splitScheme u).1 = true ∧
     (splitScheme u).1.map Char.toLower = (splitScheme u).1) := by
  unfold splitScheme
  cases hd : u.dropWhile (fun c => c != ':') with
  | nil => left; rfl
  | cons x rest =>
    simp only []
    by_cases hv : validScheme (u.takeWhile (fun c => c != ':')) = true
    · rw [if_pos hv]
      right
      exact ⟨validScheme_map_toLower _ hv, map_toLower_map_toLower _⟩
    · rw [if_neg hv]
      left
      rfl

theorem splitScheme_mem_snd (u : List Char) (c : Char)
    (hc : c ∈ (splitScheme u).2) : c ∈ u := by
  unfold splitScheme at hc
  cases hd : u.dropWhile (fun c => c != ':') with
  | nil =>
    rw [hd] at hc
    exact hc
  | cons x rest =>
    rw [hd] at hc
    simp only [] at hc
    by_cases hv : validScheme (u.takeWhile (fun c => c != ':')) = true
    · rw [if_pos hv] at hc
      have : c ∈ u.dropWhile (fun c => c != ':') := by
        rw [hd]
        exact List.mem_cons_of_mem x hc
      exact mem_dropWhileL _ u c this
    · rw [if_neg hv] at hc
      exact hc

theorem splitNetloc_fst_no_delim (x : List Char) (c : Char)
    (hc : c ∈ (splitNetloc x).1) : (!netlocDelim c) = true := by
  unfold splitNetloc at hc
  split at hc
  · exact (mem_takeWhileL _ _ c hc).2
  · simp at hc

theorem splitNetloc_mem_fst (x : List Char) (c : Char)
    (hc : c ∈ (splitNetloc x).1) : c ∈ x := by
  unfold splitNetloc at hc
  split at hc
  · next rest =>
    exact List.mem_cons_of_mem _ (List.mem_cons_of_mem _
      (mem_takeWhileL _ rest c hc).1)
  · simp at hc

theorem splitNetloc_mem_snd (x : List Char) (c : Char)
    (hc : c ∈ (splitNetloc x).2) : c ∈ x := by
  unfold splitNetloc at hc
  split at hc
  · next rest =>
    exact List.mem_cons_of_mem _ (List.mem_cons_of_mem _
      (mem_dropWhileL _ rest c hc))
  · exact hc

theorem splitNetloc_snd_of_fst_ne (x : List Char)
    (h : (splitNetloc x).1 ≠ []) :
    (splitNetloc x).2 = [] ∨
    ∃ c t, (splitNetloc x).2 = c :: t ∧ netlocDelim c = true := by
  unfold splitNetloc at h ⊢
  revert h
  split
  · next rest =>
    intro h
    rcases dropWhile_shape (fun c => !netlocDelim c) rest with h2 | ⟨c, t, h2, hcf⟩
    · left; exact h2
    · right
      refine ⟨c, t, h2, ?_⟩
      simpa using hcf
  · intro h
    exact absurd rfl h

theorem path_mem_frag_src (x : List Char) (c : Char)
    (hc : c ∈ (splitparams (splitQuery (splitFragment x).1).1).1) :
    c ∈ x ∧ (c != '#') = true ∧ (c != '?') = true := by
  have h1 : c ∈ (splitQuery (splitFragment x).1).1 :=
    mem_splitparams_fst _ c hc
  have h2 := mem_takeWhileL (fun c => c != '?') (splitFragment x).1 c h1
  have h3 := mem_takeWhileL (fun c => c != '#') x c h2.1
  exact ⟨h3.1, h3.2, h2.2⟩

theorem path_shape_of_delim (x : List Char)
    (hx : x = [] ∨ ∃ c t, x = c :: t ∧ netlocDelim c = true) :
    (splitparams (splitQuery (splitFragment x).1).1).1 = [] ∨
    ∃ t, (splitparams (splitQuery (splitFragment x).1).1).1 = '/' :: t := by
  rcases hx with hx | ⟨c, t, hx, hcd⟩
  · subst hx
    left
    rfl
  · subst hx
    have : c = '/' ∨ c = '?' ∨ c = '#' := by
      simpa [netlocDelim, or_assoc] using hcd
    rcases this with hc | hc | hc <;> subst hc
    · right
      have hfr : (splitFragment ('/' :: t)).1 =
          '/' :: t.takeWhile (fun c => c != '#') := by
        unfold splitFragment
        simp only []
        rw [List.takeWhile_cons, if_pos (by decide)]
      have hqr : (splitQuery (splitFragment ('/' :: t)).1).1 =
          '/' :: (t.takeWhile (fun c => c != '#')).takeWhile (fun c => c != '?') := by
        rw [hfr]
        unfold splitQuery
        simp only []
        rw [List.takeWhile_cons, if_pos (by decide)]
      rw [hqr]
      exact splitparams_slash_fst _
    · left
      have hfr : (splitFragment ('?' :: t)).1 =
          '?' :: t.takeWhile (fun c => c != '#') := by
        unfold splitFragment
        simp only []
        rw [List.takeWhile_cons, if_pos (by decide)]
      have hqr : (splitQuery (splitFragment ('?' :: t)).1).1 = [] := by
        rw [hfr]
        unfold splitQuery
        simp only []
        rw [List.takeWhile_cons, if_neg (by decide)]
      rw [hqr]
      rfl
    · left
      have hfr : (splitFragment ('#' :: t)).1 = [] := by
        unfold splitFragment
        simp only []
        rw [List.takeWhile_cons, if_neg (by decide)]
      rw [hfr]
      rfl

/-! ## The normalizer fixpoint -/

theorem normalizeL_fix (s n p : List Char)
    (hvs : validScheme s = true)
    (hlow : s.map Char.toLower = s)
    (hn : ∀ c ∈ n, (!netlocDelim c) = true)
    (hnb : bracketMismatch n = false)
    (hnc : ∀ c ∈ n, ctrlChar c = false)
    (hp : ∀ c ∈ p, (c != '#') = true ∧ (c != '?') = true)
    (hpc : ∀ c ∈ p, ctrlChar c = false)
    (hph : n ≠ [] → p = [] ∨ ∃ t, p = '/' :: t)
    (hnp : noParams p) :
    normalizeL (s ++ ':' :: '/' :: '/' :: (n ++ p)) =
      s ++ ':' :: '/' :: '/' :: (n ++ p) := by
  have hsc : ∀ c ∈ s, schemeChar c = true := by
    cases s with
    | nil => intro c hc; simp at hc
    | cons c0 cs =>
      unfold validScheme at hvs
      rw [Bool.and_eq_true, List.all_eq_true] at hvs
      exact fun c hc => hvs.2 c hc
  have hscol : ∀ c ∈ s, ((fun c => c != ':') c) = true :=
    fun c hc => schemeChar_ne_colon c (hsc c hc)
  have hsctrl : ∀ c ∈ s, ctrlChar c = false :=
    fun c hc => schemeChar_not_ctrl c (hsc c hc)
  have hA : preClean (s ++ ':' :: '/' :: '/' :: (n ++ p)) =
      s ++ ':' :: '/' :: '/' :: (n ++ p) := by
    unfold preClean
    rw [List.filter_eq_self]
    intro a ha
    rcases List.mem_append.mp ha with ha | ha
    · simp [hsctrl a ha]
    · rcases List.mem_cons.mp ha with rfl | ha
      · decide
      · rcases List.mem_cons.mp ha with rfl | ha
        · decide
        · rcases List.mem_cons.mp ha with rfl | ha
          · decide
          · rcases List.mem_append.mp ha with ha | ha
            · simp [hnc a ha]
            · simp [hpc a ha]
  have hdropB : (s ++ ':' :: '/' :: '/' :: (n ++ p)).dropWhile (fun c => c != ':') =
      ':' :: ('/' :: '/' :: (n ++ p)) := by
    rw [dropWhile_append_all _ s _ hscol]
    rw [dropWhile_cons_false _ _ _ (by decide)]
  have htakeB : (s ++ ':' :: '/' :: '/' :: (n ++ p)).takeWhile (fun c => c != ':') = s := by
    rw [takeWhile_append_all _ s _ hscol]
    rw [takeWhile_cons_false _ _ _ (by decide), List.append_nil]
  have hB : splitScheme (s ++ ':' :: '/' :: '/' :: (n ++ p)) =
      (s, '/' :: '/' :: (n ++ p)) := by
    unfold splitScheme
    rw [hdropB]
    simp only []
    rw [htakeB, if_pos hvs, hlow]
  by_cases hn0 : n = []
  · subst hn0
    have hC : splitNetloc ('/' :: '/' :: ([] ++ p)) =
        (p.takeWhile (fun c => !netlocDelim c),
         p.dropWhile (fun c => !netlocDelim c)) := by
      unfold splitNetloc
      simp only [List.nil_append]
    by_cases hbm : bracketMismatch (p.takeWhile (fun c => !netlocDelim c)) = true
    · have hparse : urlparseE (s ++ ':' :: '/' :: '/' :: ([] ++ p)) = none := by
        unfold urlparseE
        simp only []
        rw [hA, hB]
        simp only []
        rw [hC]
        simp only []
        rw [if_pos hbm]
      unfold normalizeL
      rw [hparse]
    · have hmem2 : ∀ c ∈ p.dropWhile (fun c => !netlocDelim c), c ∈ p :=
        fun c hc => mem_dropWhileL _ p c hc
      have hFr : splitFragment (p.dropWhile (fun c => !netlocDelim c)) =
          (p.dropWhile (fun c => !netlocDelim c), []) := by
        unfold splitFragment
        rw [takeWhile_all _ _ (fun c hc => (hp c (hmem2 c hc)).1),
            dropWhile_all _ _ (fun c hc => (hp c (hmem2 c hc)).1)]
      have hQr : splitQuery (p.dropWhile (fun c => !netlocDelim c)) =
          (p.dropWhile (fun c => !netlocDelim c), []) := by
        unfold splitQuery
        rw [takeWhile_all _ _ (fun c hc => (hp c (hmem2 c hc)).2),
            dropWhile_all _ _ (fun c hc => (hp c (hmem2 c hc)).2)]
      have hnp2 : noParams (p.dropWhile (fun c => !netlocDelim c)) := by
        rcases dropWhile_shape (fun c => !netlocDelim c) p with h2 | ⟨c, t, h2, hcf⟩
        · rw [h2]
          show ∀ c ∈ ([] : List Char), (c == ';') = false
          intro c hc
          simp at hc
        · have hcp : c ∈ p := hmem2 c (by rw [h2]; exact List.mem_cons_self c t)
          have hdel : netlocDelim c = true := by simpa using hcf
          have hcs : c = '/' := by
            have h3 := hp c hcp
            have h4 : c = '/' ∨ c = '?' ∨ c = '#' := by
              simpa [netlocDelim, or_assoc] using hdel
            rcases h4 with h4 | h4 | h4
            · exact h4
            · subst h4; simp at h3
            · subst h4; simp at h3
          subst hcs
          rw [h2]
          obtain ⟨a2, b2, hsl2⟩ := splitLastSlash_cons_slash t
          have hpe : p.takeWhile (fun c => !netlocDelim c) ++ '/' :: t = p := by
            rw [← h2]
            exact List.takeWhile_append_dropWhile (fun c => !netlocDelim c) p
          have hslp := splitLastSlash_append_left
            (p.takeWhile (fun c => !netlocDelim c)) ('/' :: t) a2 b2 hsl2
          rw [hpe] at hslp
          unfold noParams at hnp ⊢
          rw [hslp] at hnp
          simp only [] at hnp
          rw [hsl2]
          simp only []
          exact hnp
      have hPp : splitparams (p.dropWhile (fun c => !netlocDelim c)) =
          (p.dropWhile (fun c => !netlocDelim c), []) :=
        splitparams_of_noParams _ hnp2
      have hparse : urlparseE (s ++ ':' :: '/' :: '/' :: ([] ++ p)) =
          some ⟨s, p.takeWhile (fun c => !netlocDelim c),
                p.dropWhile (fun c => !netlocDelim c), [], [], []⟩ := by
        unfold urlparseE
        simp only []
        rw [hA, hB]
        simp only []
        rw [hC]
        simp only []
        rw [if_neg hbm]
        rw [hFr]
        simp only []
        rw [hQr]
        simp only []
        rw [hPp]
      unfold normalizeL
      rw [hparse]
      simp only [List.nil_append]
      rw [List.takeWhile_append_dropWhile]
  · rcases hph hn0 with hp0 | ⟨t, hp0⟩
    · subst hp0
      have hC : splitNetloc ('/' :: '/' :: (n ++ [])) = (n, []) := by
        unfold splitNetloc
        simp only [List.append_nil]
        rw [takeWhile_all _ n hn, dropWhile_all _ n hn]
      have hparse : urlparseE (s ++ ':' :: '/' :: '/' :: (n ++ [])) =
          some ⟨s, n, [], [], [], []⟩ := by
        unfold urlparseE
        simp only []
        rw [hA, hB]
        simp only []
        rw [hC]
        simp only []
        rw [if_neg (by simp [hnb])]
        rfl
      unfold normalizeL
      rw [hparse]
    · subst hp0
      have hC : splitNetloc ('/' :: '/' :: (n ++ '/' :: t)) = (n, '/' :: t) := by
        unfold splitNetloc
        simp only []
        rw [takeWhile_append_all _ n _ hn, dropWhile_append_all _ n _ hn]
        rw [takeWhile_cons_false _ _ _ (by decide),
            dropWhile_cons_false _ _ _ (by decide), List.append_nil]
      have hFr : splitFragment ('/' :: t) = ('/' :: t, []) := by
        unfold splitFragment
        rw [takeWhile_all _ _ (fun c hc => (hp c hc).1),
            dropWhile_all _ _ (fun c hc => (hp c hc).1)]
      have hQr : splitQuery ('/' :: t) = ('/' :: t, []) := by
        unfold splitQuery
        rw [takeWhile_all _ _ (fun c hc => (hp c hc).2),
            dropWhile_all _ _ (fun c hc => (hp c hc).2)]
      have hPp : splitparams ('/' :: t) = ('/' :: t, []) :=
        splitparams_of_noParams _ hnp
      have hparse : urlparseE (s ++ ':' :: '/' :: '/' :: (n ++ '/' :: t)) =
          some ⟨s, n, '/' :: t, [], [], []⟩ := by
        unfold urlparseE
        simp only []
        rw [hA, hB]
        simp only []
        rw [hC]
        simp only []
        rw [if_neg (by simp [hnb])]
        rw [hFr]
        simp only []
        rw [hQr]
        simp only []
        rw [hPp]
      unfold normalizeL
      rw [hparse]

theorem normalizeL_idem (u : List Char) (r : UrlParts)
    (h : urlparseE u = some r) (hs : r.scheme ≠ []) :
    normalizeL (normalizeL u) = normalizeL u := by
  obtain ⟨hsch, hnl, hnbr, hpath⟩ := urlparseE_some u r h
  have hnu : normalizeL u = r.scheme ++ ':' :: '/' :: '/' :: (r.netloc ++ r.path) := by
    unfold normalizeL
    rw [h]
  rw [hnu]
  have hvs : validScheme r.scheme = true := by
    rcases splitScheme_fst_spec (preClean u) with h1 | ⟨h1, h2⟩
    · rw [hsch] at hs
      exact absurd h1 hs
    · rw [hsch]
      exact h1
  have hlow : r.scheme.map Char.toLower = r.scheme := by
    rcases splitScheme_fst_spec (preClean u) with h1 | ⟨h1, h2⟩
    · rw [hsch] at hs
      exact absurd h1 hs
    · rw [hsch]
      exact h2
  apply normalizeL_fix
  · exact hvs
  · exact hlow
  · intro c hc
    rw [hnl] at hc
    exact splitNetloc_fst_no_delim _ c hc
  · exact hnbr
  · intro c hc
    rw [hnl] at hc
    have h1 := splitNetloc_mem_fst _ c hc
    have h2 := splitScheme_mem_snd _ c h1
    unfold preClean at h2
    have h3 := List.mem_filter.mp h2
    simpa using h3.2
  · intro c hc
    rw [hpath] at hc
    exact (path_mem_frag_src _ c hc).2
  · intro c hc
    rw [hpath] at hc
    have h1 := (path_mem_frag_src _ c hc).1
    have h2 := splitNetloc_mem_snd _ c h1
    have h3 := splitScheme_mem_snd _ c h2
    unfold preClean at h3
    have h4 := List.mem_filter.mp h3
    simpa using h4.2
  · intro hne
    rw [hnl] at hne
    rw [hpath]
    exact path_shape_of_delim _ (splitNetloc_snd_of_fst_ne _ hne)
  · rw [hpath]
    exact noParams_splitparams_fst _

/-- Claim C7 (amended): `_normalize_url` is idempotent on every string whose
parse yields a nonempty scheme (in particular on all ordinary absolute URLs),
though not on all strings (see the counterexample on the empty string), and it
strips the query string and fragment while keeping scheme, host and path. -/
theorem C7_amended :
    (∀ (s : String) (r : UrlParts), urlparseE s.data = some r → r.scheme ≠ [] →
      _normalize_url (_normalize_url s) = _normalize_url s) ∧
    _normalize_url "https://h/p?x=1#y" = "https://h/p" := by
  constructor
  · intro s r h hs
    show String.mk (normalizeL (String.mk (normalizeL s.data)).data) =
      String.mk (normalizeL s.data)
    rw [show (String.mk (normalizeL s.data)).data = normalizeL s.data from rfl]
    rw [normalizeL_idem s.data r h hs]
  · rfl

/-- Witness for the amended C7 at a concrete absolute URL. -/
theorem C7_amended_witness :
    _normalize_url (_normalize_url "https://h/p?x=1#y") =
      _normalize_url "https://h/p?x=1#y" :=
  C7_amended.1 "https://h/p?x=1#y"
    ⟨"https".data, "h".data, "/p".data, [], "x=1".data, "y".data⟩
    (by decide) (by decide)
